import Mathlib

/-!
Verification of the non-native integer arithmetic engine and the
elliptic-curve point chipset of the eigen-trust circuits.

The developments below shallowly embed the gate constraint polynomials of
the integer chips (`src/circuit/src/integer/mod.rs`), the small gadgets of
`src/circuit/src/gadgets/common.rs`, and the chipset synthesis routines of
`src/eigentrust-zk/src/ecc/same_curve/mod.rs`, and prove the functional
properties stated in the specification about them.  Where a needed source
file of the repository is not available (the RNS parameter contract
`rns.rs`, the native integer arithmetic `native.rs`, the curve parameter
modules), the corresponding definition is modelled from the specification
and marked as such in its documentation string.
-/

set_option maxHeartbeats 1000000

namespace EigenTrust

/-! ## RNS composition and the integer gate constraints -/

/-- Modelled from the spec: `compose(limbs)` from the RNS parameter contract
(`RnsParams::compose_exp` in `rns.rs`, a file that is not among the
sources): the weighted sum of the limbs by `2 ^ (NUM_BITS * i)` in the
native field, little-endian limb order. -/
def composeLimbs {F : Type} [CommRing F] {n : ℕ} (numBits : ℕ) (limbs : Fin n → F) : F :=
  ∑ i : Fin n, limbs i * 2 ^ (numBits * (i : ℕ))

/-- The native-consistency constraint of the `add` gate, from
`IntegerAddChip::configure` and from the `add` gate of
`IntegerChip::configure`: `compose(x) + compose(y) - compose(result)`.
The short quotient cell is queried by the gate (`_add_q_exp`) and is an
argument here, mirroring the source. -/
def addGateNative {F : Type} [CommRing F] {n : ℕ} (numBits : ℕ)
    (x y result : Fin n → F) (_q : F) : F :=
  composeLimbs numBits x + composeLimbs numBits y - composeLimbs numBits result

/-- The native-consistency constraint of the `sub` gate, from
`IntegerSubChip::configure`:
`compose(x) - compose(y) + q * p_in_n - compose(result)`. -/
def subGateNative {F : Type} [CommRing F] {n : ℕ} (numBits : ℕ)
    (x y result : Fin n → F) (q pInN : F) : F :=
  composeLimbs numBits x - composeLimbs numBits y + q * pInN - composeLimbs numBits result

/-- The native-consistency constraint of the `mul` gate, from
`IntegerMulChip::configure`:
`compose(x) * compose(y) - compose(q) * p_in_n - compose(result)`,
with a long (`NUM_LIMBS`-limb) quotient. -/
def mulGateNative {F : Type} [CommRing F] {n : ℕ} (numBits : ℕ)
    (x y result q : Fin n → F) (pInN : F) : F :=
  composeLimbs numBits x * composeLimbs numBits y -
    composeLimbs numBits q * pInN - composeLimbs numBits result

/-- The native-consistency constraint of the `div` gate, from
`IntegerDivChip::configure` and from the `div` gate of
`IntegerChip::configure`:
`compose(y) * compose(result) - compose(x) - compose(q) * p_in_n`,
with a long (`NUM_LIMBS`-limb) quotient. -/
def divGateNative {F : Type} [CommRing F] {n : ℕ} (numBits : ℕ)
    (x y result q : Fin n → F) (pInN : F) : F :=
  composeLimbs numBits y * composeLimbs numBits result -
    composeLimbs numBits x - composeLimbs numBits q * pInN

/-- The division relation exactly as the specification words it:
`y · result − x − quotient·modulus == 0` in the native-mod sense. -/
def divSpecRelation {F : Type} [CommRing F] (yv rv xv qv pInN : F) : Prop :=
  yv * rv - xv - qv * pInN = 0

/-- Order of the BN254 scalar field, the native field of the
`Bn256_4_68` configuration used by the repository. -/
def bn254ScalarOrder : ℕ :=
  21888242871839275222246405745257275088548364400416034343698204186575808495617

/-- Order of the BN254 base field, the wrong (foreign) field of the
`Bn256_4_68` configuration used by the repository. -/
def bn254BaseOrder : ℕ :=
  21888242871839275222246405745257275088696311157297823662689037894645226208583

/-- The native field of the `Bn256_4_68` configuration. -/
abbrev NativeF : Type := ZMod bn254ScalarOrder

/-- The wrong (foreign) field of the `Bn256_4_68` configuration. -/
abbrev WrongF : Type := ZMod bn254BaseOrder

instance : Fact (Nat.Prime 13) := ⟨by decide⟩

instance : NeZero bn254ScalarOrder := ⟨by decide⟩

instance : NeZero bn254BaseOrder := ⟨by decide⟩

/-- The value of `wrong_modulus_in_native_modulus()` for the `Bn256_4_68` configuration:
the foreign modulus reduced into the native field. -/
def pInNBn : NativeF := (bn254BaseOrder : NativeF)

/-- The limbs of the zero integer. -/
def zeroLimbs {F : Type} [CommRing F] {n : ℕ} : Fin n → F := fun _ => 0

/-! ## Common gadgets -/

/-- The `select` gate polynomial of `SelectChip::configure`:
`bit * (x - y) - (res - y)`. -/
def selectConstraint {F : Type} [CommRing F] (bit x y res : F) : F :=
  bit * (x - y) - (res - y)

/-- The witness assignment of `SelectChip::synthesize`: the value `y` when
the bit is zero, the value `x` otherwise. -/
def selectWitness {F : Type} [CommRing F] [DecidableEq F] (bit x y : F) : F :=
  if bit = 0 then y else x

/-- The two `is_zero` gate polynomials of `IsZeroChip::configure`, as a
satisfaction predicate: `x * b == 0` and `x * x_inv + b - 1 == 0`. -/
def isZeroConstraints {F : Type} [CommRing F] (x xInv b : F) : Prop :=
  x * b = 0 ∧ x * xInv + b - 1 = 0

/-! ## Elliptic-curve points as limb vectors -/

/-- An assigned elliptic-curve point: a pair of integers, each a vector of
`n` native-field limbs (`AssignedEcPoint`). -/
@[ext]
structure LimbPoint (F : Type) (n : ℕ) where
  x : Fin n → F
  y : Fin n → F

/-- Chipset `EccTableSelectChipset::synthesize`: the select gate applied to every
limb of both coordinates of the two points. -/
def eccTableSelect {F : Type} [CommRing F] [DecidableEq F] {n : ℕ} (bit : F)
    (p q : LimbPoint F n) : LimbPoint F n :=
  ⟨fun i => selectWitness bit (p.x i) (q.x i),
   fun i => selectWitness bit (p.y i) (q.y i)⟩

/-- Modelled from the spec: the integer engine's equality gadget
(`IntegerEqualChipset`, whose source file is not among the sources):
limb-wise equality of the two integers, producing `1` when all limbs agree
and `0` otherwise. -/
def intEqualGadget {F : Type} [CommRing F] [DecidableEq F] {n : ℕ}
    (a b : Fin n → F) : F :=
  if a = b then 1 else 0

/-- The `AndChipset`: both operands are constrained to booleans and then
multiplied (`MulChip`). -/
def andGadget {F : Type} [CommRing F] (a b : F) : F := a * b

/-- Chipset `EccEqualChipset::synthesize`: the logical AND of the x-coordinate and
y-coordinate integer equalities. -/
def eccPointEqual {F : Type} [CommRing F] [DecidableEq F] {n : ℕ}
    (p q : LimbPoint F n) : F :=
  andGadget (intEqualGadget p.x q.x) (intEqualGadget p.y q.y)

/-- Check `AssignedEcPoint::is_infinity`: both coordinates equal the zero
integer, the `(0,0)` identity convention. -/
def isInfinity {F : Type} [CommRing F] [DecidableEq F] {n : ℕ}
    (p : LimbPoint F n) : Prop :=
  p.x = zeroLimbs ∧ p.y = zeroLimbs

/-! ## Chipset constructors and their assertions -/

/-- The assigned auxiliary points (`AssignedAux`): a list of init points and
a list of fin points. -/
structure AuxPoints (α : Type) where
  init : List α
  fin : List α

/-- Constructor `EccMulChipset::new`: asserts that the aux structure holds exactly one
init point and one fin point; a failed Rust assertion (panic) is modelled
as `none`. -/
def eccMulChipsetNew {α β : Type} (p : α) (scalar : β) (aux : AuxPoints α) :
    Option (α × β × AuxPoints α) :=
  if aux.init.length = 1 ∧ aux.fin.length = 1 then some (p, scalar, aux) else none

/-- Constructor `EccBatchedMulChipset::new`: asserts that there are as many scalars as
points and one aux init and one aux fin point per point; a failed Rust
assertion (panic) is modelled as `none`. -/
def eccBatchedMulChipsetNew {α β : Type} (points : List α) (scalars : List β)
    (aux : AuxPoints α) : Option (List α × List β × AuxPoints α) :=
  if points.length = scalars.length ∧ aux.init.length = points.length ∧
      aux.fin.length = points.length then
    some (points, scalars, aux)
  else none

/-! ## The auxiliary-point generator -/

/-- The doubling loop of `AuxAssigner::synthesize`: starting from the
running point, push the point doubled once per additional batch element
(the `EccDoubleChipset` call, taken at the group level). -/
def pushDoubles {G : Type} [AddCommGroup G] (x : G) : ℕ → List G
  | 0 => []
  | k + 1 => (x + x) :: pushDoubles (x + x) k

/-- The list of aux points produced for a batch of length `n`: the base
point followed by `n - 1` successive doublings of it. -/
def auxPointList {G : Type} [AddCommGroup G] (n : ℕ) (b : G) : List G :=
  b :: pushDoubles b (n - 1)

/-- Chipset `AuxAssigner::synthesize` for batch length `n`: the init points grown
from the base `aux_init` point and the fin points grown from the base
`aux_fin` point, each by repeated doubling. -/
def auxAssignerSynthesize {G : Type} [AddCommGroup G] (n : ℕ)
    (auxInit auxFin : G) : List G × List G :=
  (auxPointList n auxInit, auxPointList n auxFin)

/-- Point doubling at the group level. -/
def dbl {G : Type} [AddCommGroup G] (g : G) : G := g + g

/-! ## Scalar multiplication -/

/-- Modelled from the spec: the bit decomposition of the scalar produced by
`Bits2NumChip` (source not among the sources): the `n` little-endian bits
of the scalar value. -/
def scalarBitsLE (n k : ℕ) : List Bool :=
  (List.range n).map (fun i => decide (k / 2 ^ i % 2 = 1))

/-- Operation `table_select` at the group level: the first point when the bit is set,
the second otherwise. -/
def selectPoint {G : Type} (b : Bool) (p q : G) : G := if b then p else q

/-- The accumulator loop of `EccMulChipset::synthesize` over the reversed
(most-significant-first) bits: the first bit initialises the accumulator by
a table select, the second is handled by an explicit double-then-add, and
every remaining bit by the fused ladder; each step takes the accumulator
`acc` to `2 ⬝ acc + table_select(bit, p + aux_init, aux_init)`.  The
incomplete add, double and ladder chipsets are taken at the group level,
which is exact under the preconditions of the decomposed formulas. -/
def mulScalarLoop {G : Type} [AddCommGroup G] (pa a : G) : List Bool → G
  | b0 :: b1 :: rest =>
      let acc0 := selectPoint b0 pa a
      let carry := selectPoint b1 pa a
      let acc1 := (acc0 + acc0) + carry
      rest.foldl (fun acc b => (acc + acc) + selectPoint b pa a) acc1
  | _ => 0

/-- Modelled from the spec: `EccParams::make_mul_aux` (curve parameter
module not among the sources): the aux finisher is the negation cancelling
the blinding accumulated over the scalar bits, `-((2^n - 1) • aux_init)`
for a window size of one and `n` scalar bits. -/
def makeMulAux {G : Type} [AddCommGroup G] (n : ℕ) (auxInit : G) : G :=
  -((2 ^ n - 1 : ℕ) • auxInit)

/-- Chipset `EccMulChipset::synthesize` for point `p` and a scalar `k` of `n` bits:
the accumulator starts from `aux_init + p` blinding material, is stepped
across all `n` bit positions most-significant first with no early exit,
and is finalised by adding `aux_fin`. -/
def eccMulSynthesize {G : Type} [AddCommGroup G] (p auxInit auxFin : G)
    (n k : ℕ) : G :=
  mulScalarLoop (p + auxInit) auxInit (scalarBitsLE n k).reverse + auxFin

/-- The `k`-fold repeated addition of a point. -/
def repeatedAdd {G : Type} [AddCommGroup G] : ℕ → G → G
  | 0, _ => 0
  | k + 1, p => repeatedAdd k p + p

/-- The value denoted by a most-significant-first list of bits. -/
def bitsVal : List Bool → ℕ :=
  List.foldl (fun v b => 2 * v + cond b 1 0) 0

/-! ## Native division -/

/-- Modelled from the spec: the native `div` witness computation
(`Integer::div` in `native.rs`, not among the sources): defined as
`x * y⁻¹ mod foreign_modulus`; a zero divisor makes the operation
undefined, and the native code must reject it (the Rust code fails during
witness generation), modelled as `none`. -/
def nativeDiv (x y : WrongF) : Option WrongF :=
  if y = 0 then none else some (x * y⁻¹)

/-- The integer-level reading of the `div` gate's native constraint:
`y * r - x - q * p` over `ℤ`, with `p` the foreign modulus. -/
def divConstraintInt (x y r q : ℤ) : ℤ :=
  y * r - x - q * (bn254BaseOrder : ℤ)

/-! ## The elliptic-curve formulas over the foreign field -/

/-- Chipset `EccAddChipset::synthesize` at the level of foreign-field values: the
chord slope `m = (q.y - p.y) / (q.x - p.x)`, then
`r.x = m² - p.x - q.x` and `r.y = m * (p.x - r.x) - p.y`, each step one
integer chip. -/
def ecAdd {F : Type} [Field F] (p q : F × F) : F × F :=
  let m := (q.2 - p.2) / (q.1 - p.1)
  let rx := m * m - p.1 - q.1
  (rx, m * (p.1 - rx) - p.2)

/-- Chipset `EccDoubleChipset::synthesize` at the level of foreign-field values:
the tangent slope `m = (3 p.x²) / (2 p.y)` built from adds and muls, then
`r.x = m² - 2 p.x` and `r.y = m * (p.x - r.x) - p.y`. -/
def ecDouble {F : Type} [Field F] (p : F × F) : F × F :=
  let t := p.1 * p.1
  let m := (t + t + t) / (p.2 + p.2)
  let rx := m * m - (p.1 + p.1)
  (rx, m * (p.1 - rx) - p.2)

/-- Chipset `EccUnreducedLadderChipset::synthesize` at the level of foreign-field
values: the fused double-`p`-then-add-`q` step.  `m_zero` and `x_three`
are the slope and x-coordinate of `p + q`; `m_one = m_zero +
2 p.y / (x_three - p.x)`, `r.x = m_one² - x_three - p.x` and
`r.y = m_one * (r.x - p.x) - p.y`. -/
def ecLadder {F : Type} [Field F] (p q : F × F) : F × F :=
  let mZero := (q.2 - p.2) / (q.1 - p.1)
  let xThree := mZero * mZero - p.1 - q.1
  let mOne := mZero + (p.2 + p.2) / (xThree - p.1)
  let rx := mOne * mOne - xThree - p.1
  (rx, mOne * (rx - p.1) - p.2)

/-- The short Weierstrass curve `y² = x³ + b` used by the chipset (both
configured curves, BN254 and secp256k1, have a vanishing `x` coefficient,
which the tangent formula of `EccDoubleChipset` relies on). -/
def shortW {F : Type} [CommRing F] (b : F) : WeierstrassCurve.Affine F :=
  ⟨0, 0, 0, 0, b⟩

/-- Concrete first point for exercising the table select. -/
def wpA : LimbPoint ℚ 1 := ⟨fun _ => 1, fun _ => 2⟩

/-- Concrete second point for exercising the table select. -/
def wpB : LimbPoint ℚ 1 := ⟨fun _ => 3, fun _ => 4⟩

/-! ## Helper lemmas -/

theorem composeLimbs_zeroLimbs {F : Type} [CommRing F] {n : ℕ} (numBits : ℕ) :
    composeLimbs numBits (zeroLimbs : Fin n → F) = 0 := by
  simp [composeLimbs, zeroLimbs]

theorem pInNBn_ne_zero : pInNBn ≠ 0 := by
  intro h
  have hdvd : bn254ScalarOrder ∣ bn254BaseOrder :=
    (ZMod.natCast_zmod_eq_zero_iff_dvd _ _).mp h
  exact absurd hdvd (by decide)

theorem cons_pushDoubles_eq {G : Type} [AddCommGroup G] (m : ℕ) :
    ∀ b : G, b :: pushDoubles b m = (List.range (m + 1)).map (fun i => dbl^[i] b) := by
  induction m with
  | zero =>
    intro b
    simp [pushDoubles]
  | succ m ih =>
    intro b
    rw [List.range_succ_eq_map, List.map_cons, List.map_map]
    have hcomp : ((fun i => dbl^[i] b) ∘ Nat.succ) = fun i => dbl^[i] (dbl b) := by
      funext i
      simp [Function.iterate_succ_apply]
    rw [hcomp, ← ih (dbl b)]
    simp [pushDoubles, dbl]

theorem bitsVal_from (bs : List Bool) :
    ∀ v : ℕ, bs.foldl (fun w b => 2 * w + cond b 1 0) v = v * 2 ^ bs.length + bitsVal bs := by
  induction bs with
  | nil => intro v; simp [bitsVal]
  | cons b bs ih =>
    intro v
    rw [List.foldl_cons, ih]
    show _ = v * 2 ^ (b :: bs).length +
      List.foldl (fun w b => 2 * w + cond b 1 0) (2 * 0 + cond b 1 0) bs
    rw [ih]
    simp only [List.length_cons, pow_succ]
    ring

theorem bitsVal_cons (b : Bool) (bs : List Bool) :
    bitsVal (b :: bs) = cond b 1 0 * 2 ^ bs.length + bitsVal bs := by
  show List.foldl (fun w b => 2 * w + cond b 1 0) (2 * 0 + cond b 1 0) bs = _
  rw [bitsVal_from]
  ring

theorem mulFold_closed {G : Type} [AddCommGroup G] (p a : G) :
    ∀ (bs : List Bool) (acc : G),
      bs.foldl (fun acc b => acc + acc + selectPoint b (p + a) a) acc =
        (2 ^ bs.length) • acc + (bitsVal bs) • p + (2 ^ bs.length - 1) • a := by
  intro bs
  induction bs with
  | nil => intro acc; simp [bitsVal]
  | cons b bs ih =>
    intro acc
    rw [List.foldl_cons, ih]
    have hsel : selectPoint b (p + a) a = (cond b 1 0 : ℕ) • p + a := by
      cases b <;> simp [selectPoint]
    have hpow : 2 ^ (b :: bs).length - 1 = 2 ^ bs.length + (2 ^ bs.length - 1) := by
      have h1 : 1 ≤ 2 ^ bs.length := Nat.one_le_two_pow
      simp only [List.length_cons, pow_succ]
      omega
    rw [bitsVal_cons, hsel, hpow]
    simp only [List.length_cons, pow_succ, mul_two, add_smul, smul_add, smul_smul]
    rw [Nat.mul_comm (2 ^ bs.length) (cond b 1 0)]
    abel

theorem mulScalarLoop_eq_fold {G : Type} [AddCommGroup G] (p a : G)
    (b0 b1 : Bool) (rest : List Bool) :
    mulScalarLoop (p + a) a (b0 :: b1 :: rest) =
      (b0 :: b1 :: rest).foldl (fun acc b => acc + acc + selectPoint b (p + a) a) 0 := by
  rw [List.foldl_cons, List.foldl_cons]
  show List.foldl _ _ rest = List.foldl _ _ rest
  congr 1
  abel

theorem bitsVal_scalarBits (n k : ℕ) :
    bitsVal (scalarBitsLE n k).reverse = k % 2 ^ n := by
  induction n with
  | zero => simp [scalarBitsLE, bitsVal, Nat.mod_one]
  | succ n ih =>
    rw [scalarBitsLE, List.range_succ, List.map_append, List.reverse_append]
    simp only [List.map_cons, List.map_nil, List.reverse_cons, List.reverse_nil,
      List.nil_append, List.singleton_append]
    rw [bitsVal_cons]
    have hlen : (((List.range n).map fun i => decide (k / 2 ^ i % 2 = 1)).reverse).length = n := by
      simp
    rw [hlen, ← scalarBitsLE, ih, Nat.mod_pow_succ]
    have hm : (cond (decide (k / 2 ^ n % 2 = 1)) 1 0 : ℕ) = k / 2 ^ n % 2 := by
      have h2 : k / 2 ^ n % 2 < 2 := Nat.mod_lt _ two_pos
      by_cases h : k / 2 ^ n % 2 = 1
      · simp [h]
      · simp only [h, decide_False, cond_false]
        omega
    rw [hm]
    ring

theorem repeatedAdd_eq_nsmul {G : Type} [AddCommGroup G] (k : ℕ) (p : G) :
    repeatedAdd k p = k • p := by
  induction k with
  | zero => simp [repeatedAdd]
  | succ k ih => simp [repeatedAdd, ih, succ_nsmul]

/-! ## Claim theorems -/

/-- C1 counterexample: with all limbs zero and the quotient cell set to 1,
the emitted add-gate constraint is satisfied while the relation the claim
states — `compose(x) + compose(y) = quotient * p_in_n + compose(result)` —
fails, in the `Bn256_4_68` configuration.  The quotient queried by the add
gate does not occur in the emitted native constraint. -/
theorem addGate_quotient_counterexample :
    addGateNative 68 (zeroLimbs : Fin 4 → NativeF) zeroLimbs zeroLimbs 1 = 0 ∧
    ¬ (composeLimbs 68 (zeroLimbs : Fin 4 → NativeF) +
        composeLimbs 68 (zeroLimbs : Fin 4 → NativeF) =
        1 * pInNBn + composeLimbs 68 (zeroLimbs : Fin 4 → NativeF)) := by
  constructor
  · simp [addGateNative, composeLimbs_zeroLimbs]
  · intro h
    rw [composeLimbs_zeroLimbs, one_mul] at h
    simp only [add_zero, zero_add] at h
    exact pInNBn_ne_zero h.symm

/-- C1 (amended): the native-consistency constraint emitted for the add
gate (both in `IntegerAddChip::configure` and in the `add` gate of
`IntegerChip::configure`) does not involve the assigned short quotient at
all; it asserts exactly `compose(x) + compose(y) = compose(result)` over
the native field. -/
theorem addGate_native_no_quotient {F : Type} [CommRing F] {n : ℕ} (numBits : ℕ)
    (x y r : Fin n → F) (q q' : F) :
    addGateNative numBits x y r q = addGateNative numBits x y r q' ∧
    (addGateNative numBits x y r q = 0 ↔
      composeLimbs numBits x + composeLimbs numBits y = composeLimbs numBits r) := by
  refine ⟨rfl, ?_⟩
  unfold addGateNative
  exact sub_eq_zero

/-- C2: the native-consistency constraint of the div gate is exactly the
relation `compose(y)·compose(result) − compose(x) − compose(q)·p_in_n == 0`
the spec words, with the quotient a full `NUM_LIMBS`-limb vector composed
like an integer; equivalently the constraint holds iff
`compose(y)·compose(result) = compose(x) + compose(q)·p_in_n`. -/
theorem divGate_matches_spec {F : Type} [CommRing F] {n : ℕ} (numBits : ℕ)
    (x y r q : Fin n → F) (pInN : F) :
    (divGateNative numBits x y r q pInN = 0 ↔
      divSpecRelation (composeLimbs numBits y) (composeLimbs numBits r)
        (composeLimbs numBits x) (composeLimbs numBits q) pInN) ∧
    (divGateNative numBits x y r q pInN = 0 ↔
      composeLimbs numBits y * composeLimbs numBits r =
        composeLimbs numBits x + composeLimbs numBits q * pInN) := by
  constructor
  · exact Iff.rfl
  · unfold divGateNative
    rw [sub_sub, sub_eq_zero]

/-- C5: the table select returns `p` on bit 1 and `q` on bit 0 for any two
distinct points, limb by limb; the select gate constraint is satisfied by
the assigned witness for both boolean bit values, and for an arbitrary
assigned bit the constraint only forces `res = bit·(x − y) + y`, without
validating the bit. -/
theorem tableSelect_correct {F : Type} [Field F] [DecidableEq F] {n : ℕ}
    (p q : LimbPoint F n) (hpq : p ≠ q) (bit : F) :
    eccTableSelect 1 p q = p ∧ eccTableSelect 0 p q = q ∧
    (∀ x y : F, selectConstraint 1 x y (selectWitness 1 x y) = 0 ∧
      selectConstraint 0 x y (selectWitness 0 x y) = 0) ∧
    (∀ x y res : F, selectConstraint bit x y res = 0 ↔ res = bit * (x - y) + y) := by
  refine ⟨?_, ?_, ?_, ?_⟩
  · ext i <;> simp [eccTableSelect, selectWitness]
  · ext i <;> simp [eccTableSelect, selectWitness]
  · intro x y
    constructor <;> simp [selectConstraint, selectWitness]
  · intro x y res
    unfold selectConstraint
    constructor
    · intro h
      have h1 := sub_eq_zero.mp h
      exact sub_eq_iff_eq_add.mp h1.symm
    · intro h
      subst h
      ring

/-- Witness for C5 at concrete points over `ℚ`. -/
theorem tableSelect_correct_witness :
    wpA ≠ wpB ∧
      (eccTableSelect 1 wpA wpB = wpA ∧ eccTableSelect 0 wpA wpB = wpB ∧
        (∀ x y : ℚ, selectConstraint 1 x y (selectWitness 1 x y) = 0 ∧
          selectConstraint 0 x y (selectWitness 0 x y) = 0) ∧
        (∀ x y res : ℚ, selectConstraint 5 x y res = 0 ↔ res = 5 * (x - y) + y)) := by
  have hne : wpA ≠ wpB := fun h => by
    have hx := congrArg (fun r => LimbPoint.x r 0) h
    simp [wpA, wpB] at hx
  exact ⟨hne, tableSelect_correct wpA wpB hne 5⟩

/-- C8: the point equality check returns 1 exactly when both coordinates
agree limb-wise (the two integer equalities combined by AND, i.e.
multiplication of booleans), returns 0 otherwise, and the identity check
holds exactly when both coordinates are the zero integer. -/
theorem pointEqual_correct {F : Type} [Field F] [DecidableEq F] {n : ℕ}
    (p q : LimbPoint F n) :
    (eccPointEqual p q = 1 ↔ p.x = q.x ∧ p.y = q.y) ∧
    (eccPointEqual p q = 0 ↔ ¬(p.x = q.x ∧ p.y = q.y)) ∧
    (isInfinity p ↔ p.x = zeroLimbs ∧ p.y = zeroLimbs) := by
  unfold eccPointEqual andGadget intEqualGadget isInfinity
  refine ⟨?_, ?_, Iff.rfl⟩
  · by_cases hx : p.x = q.x <;> by_cases hy : p.y = q.y <;> simp [hx, hy]
  · by_cases hx : p.x = q.x <;> by_cases hy : p.y = q.y <;> simp [hx, hy]

/-- C9: for any witness `(x, x_inv, b)` satisfying both is_zero gate
constraints, the output `b` is uniquely determined as the zero indicator of
`x`, for any choice of the inverse hint. -/
theorem isZero_output_unique {F : Type} [Field F] [DecidableEq F]
    (x xInv b : F) (h : isZeroConstraints x xInv b) :
    b = if x = 0 then 1 else 0 := by
  obtain ⟨h1, h2⟩ := h
  by_cases hx : x = 0
  · subst hx
    rw [if_pos rfl]
    have h3 : b - 1 = 0 := by linear_combination h2
    exact sub_eq_zero.mp h3
  · rw [if_neg hx]
    rcases mul_eq_zero.mp h1 with h | h
    · exact absurd h hx
    · exact h

/-- Witness for C9 at `x = 0` over `ℚ`. -/
theorem isZero_output_unique_witness :
    isZeroConstraints (0 : ℚ) 1 1 ∧ (1 : ℚ) = if (0 : ℚ) = 0 then 1 else 0 :=
  have hcon : isZeroConstraints (0 : ℚ) 1 1 := ⟨by ring, by ring⟩
  ⟨hcon, isZero_output_unique 0 1 1 hcon⟩

/-- C10: the scalar-multiplication chipset constructors enforce the aux
shape preconditions: `EccMulChipset::new` succeeds exactly when the aux
structure holds one init and one fin point, and
`EccBatchedMulChipset::new` exactly when the scalar count matches the point
count and the aux lists hold one entry per point (a violated assertion
panics, modelled as `none`). -/
theorem chipsetNew_assertions {α β : Type} (p : α) (s : β) (points : List α)
    (scalars : List β) (aux : AuxPoints α) :
    ((eccMulChipsetNew p s aux).isSome ↔
      aux.init.length = 1 ∧ aux.fin.length = 1) ∧
    ((eccBatchedMulChipsetNew points scalars aux).isSome ↔
      points.length = scalars.length ∧ aux.init.length = points.length ∧
        aux.fin.length = points.length) := by
  constructor
  · unfold eccMulChipsetNew
    split <;> simp_all
  · unfold eccBatchedMulChipsetNew
    split <;> simp_all

/-- C6: for every batch size `n ≥ 1` the batched auxiliary-point generator
returns exactly `n` init and `n` fin points, where point `i` of each list
is the corresponding base point doubled `i` times (so the base pair is
doubled `n - 1` times in total, once per additional batch element). -/
theorem auxAssigner_batched {G : Type} [AddCommGroup G] (n : ℕ) (hn : 1 ≤ n)
    (auxInit auxFin : G) :
    (auxAssignerSynthesize n auxInit auxFin).1.length = n ∧
    (auxAssignerSynthesize n auxInit auxFin).2.length = n ∧
    (auxAssignerSynthesize n auxInit auxFin).1 =
      (List.range n).map (fun i => dbl^[i] auxInit) ∧
    (auxAssignerSynthesize n auxInit auxFin).2 =
      (List.range n).map (fun i => dbl^[i] auxFin) := by
  obtain ⟨m, rfl⟩ : ∃ m, n = m + 1 := ⟨n - 1, by omega⟩
  have hm : m + 1 - 1 = m := by omega
  have e1 := cons_pushDoubles_eq m auxInit
  have e2 := cons_pushDoubles_eq m auxFin
  simp only [auxAssignerSynthesize, auxPointList, hm]
  rw [e1, e2]
  simp

/-- Witness for C6 at batch size 3 over `ℤ`. -/
theorem auxAssigner_batched_witness :
    1 ≤ 3 ∧
      ((auxAssignerSynthesize 3 (1 : ℤ) 5).1.length = 3 ∧
        (auxAssignerSynthesize 3 (1 : ℤ) 5).2.length = 3 ∧
        (auxAssignerSynthesize 3 (1 : ℤ) 5).1 =
          (List.range 3).map (fun i => dbl^[i] (1 : ℤ)) ∧
        (auxAssignerSynthesize 3 (1 : ℤ) 5).2 =
          (List.range 3).map (fun i => dbl^[i] (5 : ℤ))) :=
  ⟨by decide, auxAssigner_batched 3 (by decide) 1 5⟩

/-- C3: for every point `P` of the group (the add/double/ladder chipsets
are taken at the group level, which is exact under the stated preconditions
that `P` is not the identity and never collides with the aux points) and
every scalar `k` in `0..32`, the scalar-multiplication chipset returns the
`k`-fold repeated addition of `P`: the accumulator starts from
`aux_init + P` material, is stepped across all `n` scalar bit positions
with no early exit, and is finalised by adding `aux_fin`. -/
theorem eccMul_small_scalar_consistency {G : Type} [AddCommGroup G]
    (p auxInit : G) (n k : ℕ) (hn : 2 ≤ n) (hk32 : k < 32) (hkn : k < 2 ^ n) :
    eccMulSynthesize p auxInit (makeMulAux n auxInit) n k = repeatedAdd k p := by
  have hlen : (scalarBitsLE n k).reverse.length = n := by simp [scalarBitsLE]
  obtain ⟨b0, b1, rest, hbs⟩ :
      ∃ b0 b1 rest, (scalarBitsLE n k).reverse = b0 :: b1 :: rest := by
    rcases hbsE : (scalarBitsLE n k).reverse with _ | ⟨b0, _ | ⟨b1, rest⟩⟩
    · rw [hbsE] at hlen
      simp at hlen
      omega
    · rw [hbsE] at hlen
      simp at hlen
      omega
    · exact ⟨b0, b1, rest, rfl⟩
  unfold eccMulSynthesize
  rw [hbs, mulScalarLoop_eq_fold, mulFold_closed, ← hbs, hlen]
  rw [bitsVal_scalarBits, Nat.mod_eq_of_lt hkn, repeatedAdd_eq_nsmul, makeMulAux]
  rw [smul_zero, zero_add]
  abel

/-- Witness for C3 at `n = 8` bits, `k = 7`, over `ℤ`. -/
theorem eccMul_small_scalar_witness :
    2 ≤ 8 ∧ 7 < 32 ∧ 7 < 2 ^ 8 ∧
      eccMulSynthesize (3 : ℤ) 5 (makeMulAux 8 5) 8 7 = repeatedAdd 7 3 :=
  ⟨by decide, by decide, by decide,
    eccMul_small_scalar_consistency 3 5 8 7 (by decide) (by decide) (by decide)⟩

/-- C7: the native `div` rejects the zero integer as divisor, the circuit
form only re-verifies the multiplicative relation (its native constraint
composes to exactly `y * r - x - q * p` over the integers), and for a zero
divisor and a nonzero reduced dividend no choice of result and
(range-checked, hence nonnegative) quotient satisfies that relation — no
emitted constraint accepts a forged inverse for zero. -/
theorem div_by_zero_rejected :
    (∀ x : WrongF, nativeDiv x 0 = none) ∧
    (∀ x y r q : Fin 4 → ℤ,
      divGateNative 68 x y r q (bn254BaseOrder : ℤ) =
        divConstraintInt (composeLimbs 68 x) (composeLimbs 68 y)
          (composeLimbs 68 r) (composeLimbs 68 q)) ∧
    (∀ xv rv qv : ℤ, 0 < xv → xv < (bn254BaseOrder : ℤ) → 0 ≤ qv →
      divConstraintInt xv 0 rv qv ≠ 0) := by
  refine ⟨?_, ?_, ?_⟩
  · intro x
    simp [nativeDiv]
  · intro x y r q
    unfold divGateNative divConstraintInt
    ring
  · intro xv rv qv hx _ hq h
    unfold divConstraintInt at h
    have hp0 : (0 : ℤ) < (bn254BaseOrder : ℤ) := by
      have : 0 < bn254BaseOrder := by decide
      exact_mod_cast this
    have hqp : 0 ≤ qv * (bn254BaseOrder : ℤ) := mul_nonneg hq hp0.le
    have h2 : -xv - qv * (bn254BaseOrder : ℤ) = 0 := by linear_combination h
    linarith

/-- Witness for C7 at concrete inputs. -/
theorem div_by_zero_rejected_witness :
    nativeDiv (3 : WrongF) 0 = none ∧
      (0 : ℤ) < 5 ∧ (5 : ℤ) < (bn254BaseOrder : ℤ) ∧ (0 : ℤ) ≤ 2 ∧
      divConstraintInt 5 0 7 2 ≠ 0 :=
  ⟨div_by_zero_rejected.1 3, by decide, by decide, by decide,
    div_by_zero_rejected.2.2 5 7 2 (by decide) (by decide) (by decide)⟩

theorem shortW_a₁ {F : Type} [CommRing F] (b : F) : (shortW b).a₁ = 0 := rfl

theorem shortW_a₂ {F : Type} [CommRing F] (b : F) : (shortW b).a₂ = 0 := rfl

theorem shortW_a₃ {F : Type} [CommRing F] (b : F) : (shortW b).a₃ = 0 := rfl

theorem shortW_a₄ {F : Type} [CommRing F] (b : F) : (shortW b).a₄ = 0 := rfl

theorem shortW_a₆ {F : Type} [CommRing F] (b : F) : (shortW b).a₆ = b := rfl

theorem shortW_nonsingular_of {F : Type} [Field F] (b x y : F)
    (heq : y ^ 2 = x ^ 3 + b) (hy : y + y ≠ 0) :
    (shortW b).Nonsingular x y := by
  rw [WeierstrassCurve.Affine.nonsingular_iff, WeierstrassCurve.Affine.equation_iff]
  simp only [shortW_a₁, shortW_a₂, shortW_a₃, shortW_a₄, shortW_a₆]
  constructor
  · linear_combination heq
  · right
    intro h
    apply hy
    linear_combination h

theorem ecAdd_eq_mathlib {F : Type} [Field F] (b px py qx qy : F) (hx : px ≠ qx) :
    ecAdd (px, py) (qx, qy) =
      ((shortW b).addX px qx ((shortW b).slope px qx py qy),
       (shortW b).addY px qx py ((shortW b).slope px qx py qy)) := by
  have hs : (shortW b).slope px qx py qy = (qy - py) / (qx - px) := by
    rw [WeierstrassCurve.Affine.slope_of_X_ne hx]
    rw [← neg_sub py qy, ← neg_sub px qx, neg_div_neg_eq]
  simp only [ecAdd, WeierstrassCurve.Affine.addX, WeierstrassCurve.Affine.addY,
    WeierstrassCurve.Affine.negAddY, WeierstrassCurve.Affine.negY,
    shortW_a₁, shortW_a₂, shortW_a₃, hs, Prod.mk.injEq]
  constructor <;> ring

theorem ecDouble_eq_mathlib {F : Type} [Field F] (b px py : F) (h2y : py + py ≠ 0) :
    ecDouble (px, py) =
      ((shortW b).addX px px ((shortW b).slope px px py py),
       (shortW b).addY px px py ((shortW b).slope px px py py)) := by
  have hyne : py ≠ (shortW b).negY px py := by
    simp only [WeierstrassCurve.Affine.negY, shortW_a₁, shortW_a₃]
    intro h
    apply h2y
    linear_combination h
  have hs : (shortW b).slope px px py py = (px * px + px * px + px * px) / (py + py) := by
    rw [WeierstrassCurve.Affine.slope_of_Y_ne rfl hyne]
    simp only [WeierstrassCurve.Affine.negY, shortW_a₁, shortW_a₂, shortW_a₃, shortW_a₄]
    congr 1
    · ring
    · ring
  simp only [ecDouble, WeierstrassCurve.Affine.addX, WeierstrassCurve.Affine.addY,
    WeierstrassCurve.Affine.negAddY, WeierstrassCurve.Affine.negY,
    shortW_a₁, shortW_a₂, shortW_a₃, hs, Prod.mk.injEq]
  constructor <;> ring

theorem ecLadder_eq_add_add {F : Type} [Field F] (px py qx qy : F)
    (hd : qx - px ≠ 0)
    (hx3 : (ecAdd (px, py) (qx, qy)).1 - px ≠ 0) :
    ecLadder (px, py) (qx, qy) = ecAdd (ecAdd (px, py) (qx, qy)) (px, py) := by
  simp only [ecLadder, ecAdd]
  set m := (qy - py) / (qx - px) with hm
  set x3 := m * m - px - qx with hx3d
  have h1 : x3 - px ≠ 0 := by
    rw [hx3d, hm]
    exact hx3
  have h2 : px - x3 ≠ 0 := by
    intro h
    apply h1
    linear_combination -h
  set y3 := m * (px - x3) - py with hy3
  have hkey : (py - y3) / (px - x3) = -(m + (py + py) / (x3 - px)) := by
    rw [hy3]
    field_simp
    ring
  rw [Prod.mk.injEq]
  constructor
  · rw [hkey]
    ring
  · rw [hkey, hy3]
    field_simp
    ring

/-- C4: for affine points `p`, `q` on the curve (nonsingular) meeting the
incomplete-formula preconditions — `q.x ≠ p.x` and every intermediate
division denominator nonzero — the fused ladder returns the same point as
first doubling `p` and then adding `q`. -/
theorem ladder_eq_add_double {F : Type} [Field F] (b px py qx qy : F)
    (hp : (shortW b).Nonsingular px py) (hq : (shortW b).Nonsingular qx qy)
    (hd : qx - px ≠ 0) (h2y : py + py ≠ 0)
    (hx3 : (ecAdd (px, py) (qx, qy)).1 - px ≠ 0)
    (hqd : qx - (ecDouble (px, py)).1 ≠ 0) :
    ecLadder (px, py) (qx, qy) = ecAdd (ecDouble (px, py)) (qx, qy) := by
  have hxq : px ≠ qx := by
    intro h
    apply hd
    rw [h]
    ring
  have hAddEq := ecAdd_eq_mathlib b px py qx qy hxq
  have hDblEq := ecDouble_eq_mathlib b px py h2y
  have hfst : (ecAdd (px, py) (qx, qy)).1
      = (shortW b).addX px qx ((shortW b).slope px qx py qy) := by
    rw [hAddEq]
  have hDfst : (ecDouble (px, py)).1
      = (shortW b).addX px px ((shortW b).slope px px py py) := by
    rw [hDblEq]
  have hx3M : (shortW b).addX px qx ((shortW b).slope px qx py qy) ≠ px := by
    intro h
    apply hx3
    rw [hfst, h, sub_self]
  have hdqM : (shortW b).addX px px ((shortW b).slope px px py py) ≠ qx := by
    intro h
    apply hqd
    rw [hDfst, h, sub_self]
  have hyne : py ≠ (shortW b).negY px py := by
    simp only [WeierstrassCurve.Affine.negY, shortW_a₁, shortW_a₃]
    intro h
    apply h2y
    linear_combination h
  have egrp :
      (WeierstrassCurve.Affine.Point.some hp + WeierstrassCurve.Affine.Point.some hq) +
          WeierstrassCurve.Affine.Point.some hp =
        (WeierstrassCurve.Affine.Point.some hp + WeierstrassCurve.Affine.Point.some hp) +
          WeierstrassCurve.Affine.Point.some hq := by
    abel
  rw [WeierstrassCurve.Affine.Point.add_of_X_ne hxq] at egrp
  rw [WeierstrassCurve.Affine.Point.add_of_X_ne hx3M] at egrp
  rw [WeierstrassCurve.Affine.Point.add_self_of_Y_ne hyne] at egrp
  rw [WeierstrassCurve.Affine.Point.add_of_X_ne hdqM] at egrp
  injection egrp with hXeq hYeq
  rw [ecLadder_eq_add_add px py qx qy hd hx3, hAddEq,
      ecAdd_eq_mathlib b _ _ px py hx3M, hDblEq,
      ecAdd_eq_mathlib b _ _ qx qy hdqM]
  rw [Prod.mk.injEq]
  exact ⟨hXeq, hYeq⟩

/-- Witness for C4 on the curve `y² = x³ + 9` over `ZMod 13` with
`p = (1, 7)` and `q = (2, 2)`. -/
theorem ladder_eq_add_double_witness :
    (shortW (9 : ZMod 13)).Nonsingular 1 7 ∧ (shortW (9 : ZMod 13)).Nonsingular 2 2 ∧
      (2 : ZMod 13) - 1 ≠ 0 ∧ (7 : ZMod 13) + 7 ≠ 0 ∧
      (ecAdd ((1 : ZMod 13), 7) (2, 2)).1 - 1 ≠ 0 ∧
      (2 : ZMod 13) - (ecDouble ((1 : ZMod 13), 7)).1 ≠ 0 ∧
      ecLadder ((1 : ZMod 13), 7) (2, 2) = ecAdd (ecDouble ((1 : ZMod 13), 7)) (2, 2) := by
  have hp : (shortW (9 : ZMod 13)).Nonsingular 1 7 :=
    shortW_nonsingular_of 9 1 7 (by decide) (by decide)
  have hq : (shortW (9 : ZMod 13)).Nonsingular 2 2 :=
    shortW_nonsingular_of 9 2 2 (by decide) (by decide)
  have hx3 : (ecAdd ((1 : ZMod 13), 7) (2, 2)).1 - 1 ≠ 0 := by
    simp only [ecAdd, show ((2 : ZMod 13) - 1) = 1 from by decide, div_one]
    decide
  have hqd : (2 : ZMod 13) - (ecDouble ((1 : ZMod 13), 7)).1 ≠ 0 := by
    simp only [ecDouble, show ((7 : ZMod 13) + 7) = 1 from by decide, div_one]
    decide
  refine ⟨hp, hq, by decide, by decide, hx3, hqd, ?_⟩
  exact ladder_eq_add_double 9 1 7 2 2 hp hq (by decide) (by decide) hx3 hqd

end EigenTrust
